import Mathlib

/-!
Verification of the `ult_algo` sequence library.

The Rust sources are shallowly embedded over `List Int` (the library is generic
over ordered/equality element types; a linear order with subtraction is the
instance every claim exercises).  Machine integers are modelled by `Nat`/`Int`;
`usize` indices never overflow in the executions considered.  `panic!` and
index/cast panics are modelled as `none` results.  Imperative loops are
modelled by structurally recursive functions carrying an explicit iteration
budget (`fuel`) where the Rust loop condition is data-dependent; the budget
supplied by each wrapper is proved sufficient.
-/

/-- `<[T]>::swap i j`: exchange the entries at positions `i` and `j`.
Out-of-range `set` is a no-op in Lean; every use in this development is
in bounds (matching the Rust code, which would panic otherwise). -/
def lswap (l : List Int) (i j : Nat) : List Int :=
  (l.set i (l.getD j 0)).set j (l.getD i 0)

theorem lswap_length (l : List Int) (i j : Nat) : (lswap l i j).length = l.length := by
  simp [lswap]

theorem getD_lswap (l : List Int) (i j k : Nat) (hi : i < l.length) (hj : j < l.length) :
    (lswap l i j).getD k 0 =
      if k = j then l.getD i 0 else if k = i then l.getD j 0 else l.getD k 0 := by
  by_cases hkj : k = j
  · subst hkj
    rw [if_pos rfl, List.getD_eq_getElem (lswap l i k) 0 (by rw [lswap_length]; exact hj)]
    unfold lswap
    exact List.getElem_set_self _
  · rw [if_neg hkj]
    by_cases hki : k = i
    · subst hki
      rw [if_pos rfl, List.getD_eq_getElem (lswap l k j) 0 (by rw [lswap_length]; exact hi)]
      unfold lswap
      rw [List.getElem_set_ne (by omega), List.getElem_set_self,
        List.getD_eq_getElem _ _ hj]
    · rw [if_neg hki]
      by_cases hk : k < l.length
      · rw [List.getD_eq_getElem (lswap l i j) 0 (by rw [lswap_length]; exact hk)]
        unfold lswap
        rw [List.getElem_set_ne (by omega), List.getElem_set_ne (by omega),
          List.getD_eq_getElem _ _ hk]
      · rw [List.getD_eq_default (lswap l i j) 0 (by rw [lswap_length]; omega),
          List.getD_eq_default _ _ (by omega)]

theorem getD_cons_set_perm :
    ∀ (t : List Int) (j : Nat) (x : Int), j < t.length →
      List.Perm (t.getD j 0 :: t.set j x) (x :: t) := by
  intro t
  induction t with
  | nil => intro j x h; simp at h
  | cons y t ih =>
    intro j x h
    cases j with
    | zero => simpa using (List.Perm.swap y x t).symm
    | succ j =>
      have hj : j < t.length := by simpa using h
      have h1 : List.Perm (t.getD j 0 :: y :: t.set j x) (y :: t.getD j 0 :: t.set j x) :=
        List.Perm.swap y (t.getD j 0) (t.set j x)
      have h2 : List.Perm (y :: t.getD j 0 :: t.set j x) (y :: x :: t) :=
        List.Perm.cons y (ih j x hj)
      have h3 : List.Perm (y :: x :: t) (x :: y :: t) := List.Perm.swap x y t
      simpa using (h1.trans h2).trans h3

theorem lswap_perm (l : List Int) (i j : Nat) (hi : i < l.length) (hj : j < l.length) :
    List.Perm (lswap l i j) l := by
  induction l generalizing i j with
  | nil => simp at hi
  | cons x t ih =>
    cases i with
    | zero =>
      cases j with
      | zero => simp [lswap]
      | succ j =>
        have hj' : j < t.length := by simpa using hj
        have : lswap (x :: t) 0 (j + 1) = t.getD j 0 :: t.set j x := by
          simp [lswap]
        rw [this]
        exact getD_cons_set_perm t j x hj'
    | succ i =>
      cases j with
      | zero =>
        have hi' : i < t.length := by simpa using hi
        have : lswap (x :: t) (i + 1) 0 = t.getD i 0 :: t.set i x := by
          simp [lswap]
        rw [this]
        exact getD_cons_set_perm t i x hi'
      | succ j =>
        have hi' : i < t.length := by simpa using hi
        have hj' : j < t.length := by simpa using hj
        have : lswap (x :: t) (i + 1) (j + 1) = x :: lswap t i j := by
          simp [lswap]
        rw [this]
        exact List.Perm.cons x (ih i j hi' hj')

theorem lswap_comm (l : List Int) (i j : Nat) (h : i ≠ j) :
    lswap l i j = lswap l j i := by
  unfold lswap
  rw [List.set_comm _ _ _ h]

/-- Indexed membership via `getD`. -/
theorem getD_mem (l : List Int) (i : Nat) (h : i < l.length) : l.getD i 0 ∈ l := by
  rw [List.getD_eq_getElem _ _ h]
  exact List.getElem_mem h

theorem mem_getD (l : List Int) (v : Int) (h : v ∈ l) :
    ∃ i, i < l.length ∧ l.getD i 0 = v := by
  obtain ⟨n, hn, e⟩ := List.mem_iff_getElem.mp h
  exact ⟨n, hn, by rw [List.getD_eq_getElem _ _ hn]; exact e⟩

/-- In a `≤`-sorted list, values are monotone in the index. -/
theorem sorted_getD_le (l : List Int) (hs : List.Pairwise (· ≤ ·) l)
    (i j : Nat) (hij : i ≤ j) (hj : j < l.length) : l.getD i 0 ≤ l.getD j 0 := by
  rcases Nat.lt_or_ge i j with h | h
  · rw [List.getD_eq_getElem _ _ (lt_trans h hj), List.getD_eq_getElem _ _ hj]
    exact List.pairwise_iff_getElem.mp hs i j (lt_trans h hj) hj h
  · have : i = j := le_antisymm hij h
    subst this; rfl

/-- In a strictly sorted list, values are strictly monotone in the index. -/
theorem sorted_getD_lt (l : List Int) (hs : List.Pairwise (· < ·) l)
    (i j : Nat) (hij : i < j) (hj : j < l.length) : l.getD i 0 < l.getD j 0 := by
  rw [List.getD_eq_getElem _ _ (lt_trans hij hj), List.getD_eq_getElem _ _ hj]
  exact List.pairwise_iff_getElem.mp hs i j (lt_trans hij hj) hj hij

/-- Result type of `ult_algo::sequence::search::binary`. -/
structure BinarySearchResult where
  index : Option Nat
  rank : Nat
deriving DecidableEq

/-- `BinarySearchResult::new`; the "rank should be less than or equal to index"
panic is modelled as `none`. -/
def BinarySearchResult.new (index : Option Nat) (rank : Nat) : Option BinarySearchResult :=
  match index with
  | some i => if rank > i then none else some ⟨some i, rank⟩
  | none => some ⟨none, rank⟩

/-- The `while left <= right` loop of `binary`, with an explicit iteration
budget (`none` = budget exhausted, proved unreachable for the budget supplied
by `binaryP`).  The Rust midpoint `((left+right) as f64 / 2.0).floor() as usize`
is exact `Nat` division by 2 here (both operands are nonnegative and far below
2^52). -/
def binaryAux (s : List Int) (v : Int) : Nat → Nat → Int → Option BinarySearchResult
  | 0, _, _ => none
  | fuel + 1, left, right =>
    if (left : Int) ≤ right then
      let m : Nat := (left + right.toNat) / 2
      if s.getD m 0 < v then binaryAux s v fuel (m + 1) right
      else if v < s.getD m 0 then binaryAux s v fuel left ((m : Int) - 1)
      else BinarySearchResult.new (some m) m
    else BinarySearchResult.new none left

/-- `binary`, with every result routed through `BinarySearchResult::new`
(so a `rank > index` construction would surface as `none`). -/
def binaryP (s : List Int) (v : Int) : Option BinarySearchResult :=
  binaryAux s v (s.length + 1) 0 ((s.length : Int) - 1)

/-- `binary`, as a total function (justified by `binaryP_eq_some`). -/
def binary (s : List Int) (v : Int) : BinarySearchResult :=
  (binaryP s v).getD ⟨none, 0⟩

theorem midpoint_bounds (left rt : Nat) (h : left ≤ rt) :
    left ≤ (left + rt) / 2 ∧ (left + rt) / 2 ≤ rt := by
  constructor
  · rw [Nat.le_div_iff_mul_le (by norm_num)]
    omega
  · calc (left + rt) / 2 ≤ (rt + rt) / 2 := Nat.div_le_div_right (by omega)
    _ = rt := by omega

/-- Without any sortedness assumption: `binaryAux` terminates within its budget
and produces an in-range result whose `rank` never exceeds a present `index`. -/
theorem binaryAux_total (s : List Int) (v : Int) :
    ∀ (fuel left : Nat) (right : Int),
      right < (s.length : Int) → left ≤ s.length →
      (right + 1 - (left : Int)).toNat < fuel →
      ∃ res, binaryAux s v fuel left right = some res ∧ res.rank ≤ s.length ∧
        ∀ i, res.index = some i → res.rank = i ∧ i < s.length := by
  intro fuel
  induction fuel with
  | zero => intro left right _ _ hm; omega
  | succ fuel ih =>
    intro left right hr hl hm
    rw [binaryAux]
    by_cases h : (left : Int) ≤ right
    · rw [if_pos h]
      have hr0 : 0 ≤ right := le_trans (by positivity) h
      have hbnd := midpoint_bounds left right.toNat (by omega)
      set m : Nat := (left + right.toNat) / 2 with hmdef
      have hmr : (m : Int) ≤ right := by omega
      have hmlen : m < s.length := by omega
      by_cases h1 : s.getD m 0 < v
      · rw [if_pos h1]
        exact ih (m + 1) right hr (by omega) (by omega)
      · rw [if_neg h1]
        by_cases h2 : v < s.getD m 0
        · rw [if_pos h2]
          exact ih left ((m : Int) - 1) (by omega) hl (by omega)
        · rw [if_neg h2]
          refine ⟨⟨some m, m⟩, ?_, show m ≤ s.length by omega, ?_⟩
          · simp [BinarySearchResult.new]
          · intro i hi
            have him : m = i := Option.some_inj.mp hi
            subst him
            exact ⟨rfl, hmlen⟩
    · rw [if_neg h]
      exact ⟨⟨none, left⟩, by simp [BinarySearchResult.new], hl, by simp⟩

theorem binaryP_eq_some (s : List Int) (v : Int) :
    binaryP s v = some (binary s v) := by
  obtain ⟨res, hres, -⟩ :=
    binaryAux_total s v (s.length + 1) 0 ((s.length : Int) - 1) (by omega) (by omega) (by omega)
  rw [binary, binaryP] at *
  rw [hres]
  rfl

/-- Main characterisation of `binary` on a `≤`-sorted list. -/
theorem binaryAux_spec (s : List Int) (v : Int) (hs : List.Pairwise (· ≤ ·) s) :
    ∀ (fuel left : Nat) (right : Int),
      right < (s.length : Int) → left ≤ s.length →
      (right + 1 - (left : Int)).toNat < fuel →
      (∀ j, j < left → s.getD j 0 < v) →
      (∀ j : Nat, (right : Int) < j → j < s.length → v < s.getD j 0) →
      (∃ i, binaryAux s v fuel left right = some ⟨some i, i⟩ ∧ i < s.length ∧ s.getD i 0 = v) ∨
      (∃ r, binaryAux s v fuel left right = some ⟨none, r⟩ ∧ r ≤ s.length ∧
        (∀ j, j < r → s.getD j 0 < v) ∧ (∀ j, r ≤ j → j < s.length → v < s.getD j 0)) := by
  intro fuel
  induction fuel with
  | zero => intro left right _ _ hm; omega
  | succ fuel ih =>
    intro left right hr hl hm inv1 inv2
    rw [binaryAux]
    by_cases h : (left : Int) ≤ right
    · rw [if_pos h]
      have hr0 : 0 ≤ right := le_trans (by positivity) h
      have hbnd := midpoint_bounds left right.toNat (by omega)
      set m : Nat := (left + right.toNat) / 2 with hmdef
      have hmr : (m : Int) ≤ right := by omega
      have hmlen : m < s.length := by omega
      by_cases h1 : s.getD m 0 < v
      · rw [if_pos h1]
        refine ih (m + 1) right hr (by omega) (by omega) ?_ inv2
        intro j hj
        exact lt_of_le_of_lt (sorted_getD_le s hs j m (by omega) hmlen) h1
      · rw [if_neg h1]
        by_cases h2 : v < s.getD m 0
        · rw [if_pos h2]
          refine ih left ((m : Int) - 1) (by omega) hl (by omega) inv1 ?_
          intro j hj hjlen
          exact lt_of_lt_of_le h2 (sorted_getD_le s hs m j (by omega) hjlen)
        · rw [if_neg h2]
          left
          refine ⟨m, ?_, hmlen, le_antisymm (not_lt.mp h2) (not_lt.mp h1)⟩
          simp [BinarySearchResult.new]
    · rw [if_neg h]
      right
      refine ⟨left, by simp [BinarySearchResult.new], hl, inv1, ?_⟩
      intro j hj hjlen
      exact inv2 j (by omega) hjlen

theorem binary_spec (s : List Int) (v : Int) (hs : List.Pairwise (· ≤ ·) s) :
    (∃ i, binary s v = ⟨some i, i⟩ ∧ i < s.length ∧ s.getD i 0 = v) ∨
    (∃ r, binary s v = ⟨none, r⟩ ∧ r ≤ s.length ∧
      (∀ j, j < r → s.getD j 0 < v) ∧ (∀ j, r ≤ j → j < s.length → v < s.getD j 0)) := by
  have hP := binaryP_eq_some s v
  have h := binaryAux_spec s v hs (s.length + 1) 0 ((s.length : Int) - 1)
    (by omega) (by omega) (by omega) (by omega) (by intro j hj hjlen; omega)
  rw [binaryP] at hP
  rcases h with ⟨i, hi, hlen, hv⟩ | ⟨r, hrr, hrlen, h1, h2⟩
  · left
    exact ⟨i, by rw [hi] at hP; exact (Option.some_inj.mp hP).symm, hlen, hv⟩
  · right
    exact ⟨r, by rw [hrr] at hP; exact (Option.some_inj.mp hP).symm, hrlen, h1, h2⟩

/-- On a sorted list, `binary` reports "absent" exactly when the value is absent. -/
theorem binary_none_iff (s : List Int) (v : Int) (hs : List.Pairwise (· ≤ ·) s) :
    (binary s v).index = none ↔ v ∉ s := by
  rcases binary_spec s v hs with ⟨i, hi, hlen, hv⟩ | ⟨r, hrr, _, h1, h2⟩
  · rw [hi]
    simp only [reduceCtorEq, false_iff, not_not]
    rw [← hv]
    exact getD_mem s i hlen
  · rw [hrr]
    simp only [true_iff]
    intro hmem
    obtain ⟨j, hjlen, hj⟩ := mem_getD s v hmem
    rcases Nat.lt_or_ge j r with hlt | hge
    · exact absurd hj (ne_of_lt (h1 j hlt))
    · exact absurd hj (ne_of_gt (h2 j hge hjlen))

theorem binary_found (s : List Int) (v : Int) (hs : List.Pairwise (· ≤ ·) s)
    (i : Nat) (hi : (binary s v).index = some i) :
    (binary s v).rank = i ∧ i < s.length ∧ s.getD i 0 = v := by
  rcases binary_spec s v hs with ⟨i', hi', hlen, hv⟩ | ⟨r, hrr, _, _, _⟩
  · rw [hi'] at hi ⊢
    obtain rfl : i' = i := Option.some_inj.mp hi
    exact ⟨rfl, hlen, hv⟩
  · rw [hrr] at hi
    exact absurd hi (by simp)

/-- A positional two-sided split determines `countP`. -/
theorem countP_boundary (s : List Int) (v : Int) (r : Nat) (hr : r ≤ s.length)
    (h1 : ∀ j, j < r → s.getD j 0 < v)
    (h2 : ∀ j, r ≤ j → j < s.length → ¬ s.getD j 0 < v) :
    s.countP (fun x => decide (x < v)) = r := by
  have hsplit : s = s.take r ++ s.drop r := (List.take_append_drop r s).symm
  rw [hsplit, List.countP_append]
  have htake : (s.take r).countP (fun x => decide (x < v)) = r := by
    rw [List.countP_eq_length.mpr, List.length_take, min_eq_left hr]
    intro a ha
    obtain ⟨n, hn, e⟩ := List.mem_iff_getElem.mp ha
    have hnr : n < r := by
      have h' := hn; rw [List.length_take] at h'; omega
    rw [List.getElem_take] at e
    rw [← e]
    have h' := h1 n hnr
    rw [List.getD_eq_getElem _ _ (by omega)] at h'
    simpa using h'
  have hdrop : (s.drop r).countP (fun x => decide (x < v)) = 0 := by
    rw [List.countP_eq_zero]
    intro a ha
    obtain ⟨n, hn, e⟩ := List.mem_iff_getElem.mp ha
    have hnlen : r + n < s.length := by
      have h' := hn; rw [List.length_drop] at h'; omega
    rw [List.getElem_drop] at e
    rw [← e]
    have h' := h2 (r + n) (by omega) hnlen
    rw [List.getD_eq_getElem _ _ hnlen] at h'
    simpa using h'
  omega

/-- C2, amended: the `rank = #\x7bx ∈ S : x < v\x7d` clause needs `S` duplicate-free. -/
theorem binary_rank_count (s : List Int) (v : Int) (hs : List.Pairwise (· ≤ ·) s) :
    (binary s v).rank ≤ s.length ∧
    (∀ i, (binary s v).index = some i → s.getD i 0 = v ∧ (binary s v).rank = i) ∧
    (List.Pairwise (· < ·) s →
      (binary s v).rank = s.countP (fun x => decide (x < v))) := by
  refine ⟨?_, ?_, ?_⟩
  · rcases binary_spec s v hs with ⟨i, hi, hlen, -⟩ | ⟨r, hrr, hrlen, -, -⟩
    · rw [hi]; exact le_of_lt hlen
    · rw [hrr]; exact hrlen
  · intro i hi
    obtain ⟨hrank, hlen, hv⟩ := binary_found s v hs i hi
    exact ⟨hv, hrank⟩
  · intro hstrict
    rcases binary_spec s v hs with ⟨i, hi, hlen, hv⟩ | ⟨r, hrr, hrlen, h1, h2⟩
    · rw [hi]
      refine (countP_boundary s v i (le_of_lt hlen) ?_ ?_).symm
      · intro j hj
        rw [← hv]
        exact sorted_getD_lt s hstrict j i hj hlen
      · intro j hji hjlen
        rcases Nat.eq_or_lt_of_le hji with rfl | hlt
        · rw [hv]; exact lt_irrefl v
        · rw [← hv]
          exact not_lt.mpr (le_of_lt (sorted_getD_lt s hstrict i j hlt hjlen))
    · rw [hrr]
      exact (countP_boundary s v r hrlen h1 (fun j hj hjlen => not_lt.mpr (le_of_lt (h2 j hj hjlen)))).symm

/-- C2 counterexample: on the sorted list `[2,2,2]` with probe `2`, `binary`
returns `rank = 1`, but no element is strictly less than `2`. -/
theorem binary_rank_count_cex :
    List.Pairwise (· ≤ ·) [(2 : Int), 2, 2] ∧
    (binary [(2 : Int), 2, 2] 2).rank = 1 ∧
    List.countP (fun x => decide (x < 2)) [(2 : Int), 2, 2] = 0 ∧
    (binary [(2 : Int), 2, 2] 2).rank ≠
      List.countP (fun x => decide (x < 2)) [(2 : Int), 2, 2] := by
  refine ⟨by decide, by decide, by decide, by decide⟩

/-- C2 witness: the amended statement, instantiated on `[10, 20, 30]` probing `20`. -/
theorem binary_rank_count_witness :
    (binary [(10 : Int), 20, 30] 20).rank ≤ 3 ∧
    (∀ i, (binary [(10 : Int), 20, 30] 20).index = some i →
      ([(10 : Int), 20, 30]).getD i 0 = 20 ∧ (binary [(10 : Int), 20, 30] 20).rank = i) ∧
    (List.Pairwise (· < ·) [(10 : Int), 20, 30] →
      (binary [(10 : Int), 20, 30] 20).rank =
        List.countP (fun x => decide (x < 20)) [(10 : Int), 20, 30]) := by
  have h := binary_rank_count [(10 : Int), 20, 30] 20 (by decide)
  simpa using h

/-- C9: constructing a result with `rank > index` fails (panics), and `binary`
never does so: every search routes its result through `BinarySearchResult.new`
and still returns normally. -/
theorem binary_new_safe :
    (∀ i rank, rank > i → BinarySearchResult.new (some i) rank = none) ∧
    (∀ s v, binaryP s v = some (binary s v)) := by
  constructor
  · intro i rank h
    simp [BinarySearchResult.new, h]
  · intro s v
    exact binaryP_eq_some s v

/-- C9 witness: the panic fires on `rank = 11 > index = 10`, and a concrete
search constructs its result without panicking. -/
theorem binary_new_safe_witness :
    BinarySearchResult.new (some 10) 11 = none ∧
    binaryP [(1 : Int), 2, 3] 2 = some (binary [(1 : Int), 2, 3] 2) :=
  ⟨binary_new_safe.1 10 11 (by decide), binary_new_safe.2 [(1 : Int), 2, 3] 2⟩

/-- `ult_algo::sequence::search::binary_nearest_neighbor`. -/
def binary_nearest_neighbor (s : List Int) (v : Int) : Option Nat :=
  if s.length = 0 then none
  else
    let result := binary s v
    if result.rank = 0 then
      if result.index = none then some 0 else some 1
    else
      let predecessor_idx := result.rank - 1
      let successor_idx := result.rank + 1
      if successor_idx < s.length then
        let p_diff := s.getD result.rank 0 - s.getD predecessor_idx 0
        let s_diff := s.getD successor_idx 0 - s.getD result.rank 0
        if p_diff ≤ s_diff then some predecessor_idx else some successor_idx
      else some predecessor_idx

/-- `binary` on a one-element list, by direct computation of the loop. -/
theorem binary_singleton (s : List Int) (v : Int) (h : s.length = 1) :
    binary s v =
      if s.getD 0 0 < v then ⟨none, 1⟩
      else if v < s.getD 0 0 then ⟨none, 0⟩
      else ⟨some 0, 0⟩ := by
  have hP : binaryP s v = binaryAux s v 2 0 0 := by
    rw [binaryP, h]
    norm_num
  rw [binary, hP, binaryAux]
  rw [if_pos (show ((0 : Nat) : Int) ≤ (0 : Int) by norm_num)]
  simp only [Int.toNat_zero, Nat.add_zero, Nat.zero_div]
  by_cases h1 : s.getD 0 0 < v
  · rw [if_pos h1, if_pos h1, binaryAux]
    rw [if_neg (show ¬ ((1 : Nat) : Int) ≤ (0 : Int) by norm_num)]
    simp [BinarySearchResult.new]
  · rw [if_neg h1, if_neg h1]
    by_cases h2 : v < s.getD 0 0
    · rw [if_pos h2, if_pos h2, binaryAux]
      rw [if_neg (show ¬ ((0 : Nat) : Int) ≤ ((0 : Nat) : Int) - 1 by omega)]
      simp [BinarySearchResult.new]
    · rw [if_neg h2, if_neg h2]
      simp [BinarySearchResult.new]

/-- On a strictly sorted list, a present value is found at its (unique) index. -/
theorem binary_strict_found (s : List Int) (v : Int) (hs : List.Pairwise (· < ·) s)
    (i : Nat) (hi : i < s.length) (hv : s.getD i 0 = v) :
    binary s v = ⟨some i, i⟩ := by
  have hs' : List.Pairwise (· ≤ ·) s := hs.imp le_of_lt
  rcases binary_spec s v hs' with ⟨j, hj, hjlen, hjv⟩ | ⟨r, hrr, _, h1, h2⟩
  · have : i = j := by
      by_contra hne
      rcases Nat.lt_or_ge i j with hlt | hge
      · have := sorted_getD_lt s hs i j hlt hjlen
        omega
      · have hlt : j < i := by omega
        have := sorted_getD_lt s hs j i hlt hi
        omega
    rw [this]; exact hj
  · exfalso
    rcases Nat.lt_or_ge i r with hlt | hge
    · have := h1 i hlt; omega
    · have := h2 i hge hi; omega

/-- C10, amended: on a non-empty list the result is always `some i`; the
returned index is in range whenever `|S| ≥ 2`, while for `|S| = 1` it is `1`
(out of range) exactly when `v` equals the single element. -/
theorem binary_nearest_neighbor_range (s : List Int) (v : Int) (h : 1 ≤ s.length) :
    ∃ i, binary_nearest_neighbor s v = some i ∧
      (2 ≤ s.length → i < s.length) ∧
      (s.length = 1 → i ≤ 1 ∧ (i = 1 ↔ v = s.getD 0 0)) := by
  rcases Nat.eq_or_lt_of_le h with h1 | h2
  · -- singleton case
    have hlen : s.length = 1 := h1.symm
    have hb := binary_singleton s v hlen
    by_cases hc1 : s.getD 0 0 < v
    · rw [if_pos hc1] at hb
      refine ⟨0, ?_, by omega, fun _ => ⟨by omega, ?_, ?_⟩⟩
      · rw [binary_nearest_neighbor, if_neg (by omega), hb]
        norm_num [hlen]
      · intro h'; omega
      · intro h'; omega
    · rw [if_neg hc1] at hb
      by_cases hc2 : v < s.getD 0 0
      · rw [if_pos hc2] at hb
        refine ⟨0, ?_, by omega, fun _ => ⟨by omega, ?_, ?_⟩⟩
        · rw [binary_nearest_neighbor, if_neg (by omega), hb]
          norm_num
        · intro h'; omega
        · intro h'; omega
      · rw [if_neg hc2] at hb
        have hv : v = s.getD 0 0 := le_antisymm (not_lt.mp hc1) (not_lt.mp hc2)
        refine ⟨1, ?_, by omega, fun _ => ⟨le_refl 1, by simp [hv]⟩⟩
        rw [binary_nearest_neighbor, if_neg (by omega), hb]
        simp
  · -- |S| ≥ 2
    obtain ⟨res, hres, hrank, hidx⟩ :=
      binaryAux_total s v (s.length + 1) 0 ((s.length : Int) - 1) (by omega) (by omega) (by omega)
    have hb : binary s v = res := by
      rw [binary, binaryP, hres]; rfl
    rw [binary_nearest_neighbor, if_neg (by omega), hb]
    by_cases hr0 : res.rank = 0
    · rw [if_pos hr0]
      by_cases hni : res.index = none
      · exact ⟨0, by rw [if_pos hni], fun _ => by omega, fun hc => by omega⟩
      · exact ⟨1, by rw [if_neg hni], fun _ => by omega, fun hc => by omega⟩
    · rw [if_neg hr0]
      by_cases hsucc : res.rank + 1 < s.length
      · rw [if_pos hsucc]
        by_cases hd : s.getD res.rank 0 - s.getD (res.rank - 1) 0 ≤
            s.getD (res.rank + 1) 0 - s.getD res.rank 0
        · exact ⟨res.rank - 1, by rw [if_pos hd], fun _ => by omega, fun hc => by omega⟩
        · exact ⟨res.rank + 1, by rw [if_neg hd], fun _ => by omega, fun hc => by omega⟩
      · rw [if_neg hsucc]
        exact ⟨res.rank - 1, rfl, fun _ => by omega, fun hc => by omega⟩

/-- C10 counterexample: on the singleton sorted list `[5]` probing its own
element, the function returns `some 1`, an out-of-range index. -/
theorem binary_nearest_neighbor_range_cex :
    binary_nearest_neighbor [(5 : Int)] 5 = some 1 ∧
    ¬ (1 < ([(5 : Int)]).length) := by
  refine ⟨by decide, by decide⟩

/-- C10 witness: instantiation on the two-element list `[10, 20]` probing `10`. -/
theorem binary_nearest_neighbor_range_witness :
    ∃ i, binary_nearest_neighbor [(10 : Int), 20] 10 = some i ∧
      (2 ≤ ([(10 : Int), 20]).length → i < ([(10 : Int), 20]).length) ∧
      (([(10 : Int), 20]).length = 1 → i ≤ 1 ∧ (i = 1 ↔ (10 : Int) = ([(10 : Int), 20]).getD 0 0)) :=
  binary_nearest_neighbor_range [(10 : Int), 20] 10 (by decide)

/-- C1, amended: on a strictly sorted non-empty list, for a probe *present* in
the list the function compares the predecessor's and successor's distances from
the value with ties resolved in favour of the predecessor; `v = min` yields
index `1`, `v = max` yields the last-but-one index, `v < min` yields index `0`,
and `v > max` yields the *last* index (not the last-but-one). -/
theorem binary_nearest_neighbor_spec (s : List Int) (v : Int)
    (hs : List.Pairwise (· < ·) s) (hne : 1 ≤ s.length) :
    (v < s.getD 0 0 → binary_nearest_neighbor s v = some 0) ∧
    (v = s.getD 0 0 → binary_nearest_neighbor s v = some 1) ∧
    (s.getD (s.length - 1) 0 < v → binary_nearest_neighbor s v = some (s.length - 1)) ∧
    (2 ≤ s.length → v = s.getD (s.length - 1) 0 →
      binary_nearest_neighbor s v = some (s.length - 2)) ∧
    (∀ i, 0 < i → i + 1 < s.length → v = s.getD i 0 →
      binary_nearest_neighbor s v =
        some (if v - s.getD (i - 1) 0 ≤ s.getD (i + 1) 0 - v then i - 1 else i + 1)) := by
  have hs' : List.Pairwise (· ≤ ·) s := hs.imp le_of_lt
  refine ⟨?_, ?_, ?_, ?_, ?_⟩
  · -- v strictly below the minimum
    intro hv
    have hb : binary s v = ⟨none, 0⟩ := by
      rcases binary_spec s v hs' with ⟨i, hi, hlen, hiv⟩ | ⟨r, hrr, hrlen, h1, h2⟩
      · exfalso
        have := sorted_getD_le s hs' 0 i (by omega) hlen
        omega
      · have hr0 : r = 0 := by
          by_contra hne0
          have := h1 0 (by omega)
          omega
        rw [hrr, hr0]
    rw [binary_nearest_neighbor, if_neg (by omega), hb]
    norm_num
  · -- v equals the minimum
    intro hv
    have hb : binary s v = ⟨some 0, 0⟩ :=
      binary_strict_found s v hs 0 (by omega) hv.symm
    rw [binary_nearest_neighbor, if_neg (by omega), hb]
    simp
  · -- v strictly above the maximum
    intro hv
    have hb : binary s v = ⟨none, s.length⟩ := by
      rcases binary_spec s v hs' with ⟨i, hi, hlen, hiv⟩ | ⟨r, hrr, hrlen, h1, h2⟩
      · exfalso
        have := sorted_getD_le s hs' i (s.length - 1) (by omega) (by omega)
        omega
      · have hr0 : r = s.length := by
          by_contra hne0
          have hrn : r ≤ s.length - 1 := by omega
          have := h2 r (le_refl r) (by omega)
          have := sorted_getD_le s hs' r (s.length - 1) hrn (by omega)
          omega
        rw [hrr, hr0]
    rw [binary_nearest_neighbor, if_neg (by omega), hb]
    have c1 : ¬ ((⟨none, s.length⟩ : BinarySearchResult).rank = 0) := by
      show ¬ (s.length = 0); omega
    have c2 : ¬ ((⟨none, s.length⟩ : BinarySearchResult).rank + 1 < s.length) := by
      show ¬ (s.length + 1 < s.length); omega
    simp only [if_neg c1, if_neg c2]
  · -- v equals the maximum, at least two elements
    intro h2le hv
    have hb : binary s v = ⟨some (s.length - 1), s.length - 1⟩ :=
      binary_strict_found s v hs (s.length - 1) (by omega) hv.symm
    rw [binary_nearest_neighbor, if_neg (by omega), hb]
    have c1 : ¬ ((⟨some (s.length - 1), s.length - 1⟩ : BinarySearchResult).rank = 0) := by
      show ¬ (s.length - 1 = 0); omega
    have c2 : ¬ ((⟨some (s.length - 1), s.length - 1⟩ : BinarySearchResult).rank + 1 < s.length) := by
      show ¬ (s.length - 1 + 1 < s.length); omega
    simp only [if_neg c1, if_neg c2]
    exact congrArg some (show s.length - 1 - 1 = s.length - 2 by omega)
  · -- v present at an interior index
    intro i hi0 hilen hv
    have hb : binary s v = ⟨some i, i⟩ :=
      binary_strict_found s v hs i (by omega) hv.symm
    rw [binary_nearest_neighbor, if_neg (by omega), hb]
    have c1 : ¬ ((⟨some i, i⟩ : BinarySearchResult).rank = 0) := by
      show ¬ (i = 0); omega
    have c2 : (⟨some i, i⟩ : BinarySearchResult).rank + 1 < s.length := hilen
    simp only [if_neg c1, if_pos c2]
    rw [← hv, apply_ite some]

/-- C1 counterexample: (1) for `v = 30` above the maximum of `[10, 20]` the
function returns the *last* index `1`, not the last-but-one index `0`; (2) for
the in-range absent probe `99` over `[10,20,50,60,70,75,100]` it returns index
`5` (element `75`, distance `24`) although index `6` (element `100`) is at
distance `1` — not the nearest element. -/
theorem binary_nearest_neighbor_cex :
    (binary_nearest_neighbor [(10 : Int), 20] 30 = some 1 ∧
      ([(10 : Int), 20]).length - 2 = 0) ∧
    (binary_nearest_neighbor [(10 : Int), 20, 50, 60, 70, 75, 100] 99 = some 5 ∧
      |([(10 : Int), 20, 50, 60, 70, 75, 100]).getD 6 0 - 99| <
        |([(10 : Int), 20, 50, 60, 70, 75, 100]).getD 5 0 - 99|) := by
  refine ⟨⟨by decide, by decide⟩, ⟨by decide, by decide⟩⟩

/-- C1 witness: the amended statement instantiated on `[10, 20, 50, 60]`
probing the interior element `50` (predecessor gap `30`, successor gap `10`,
so the successor index `3` is returned). -/
theorem binary_nearest_neighbor_spec_witness :
    binary_nearest_neighbor [(10 : Int), 20, 50, 60] 50 =
      some (if (50 : Int) - ([(10 : Int), 20, 50, 60]).getD 1 0 ≤
          ([(10 : Int), 20, 50, 60]).getD 3 0 - 50 then 1 else 3) := by
  have h := (binary_nearest_neighbor_spec [(10 : Int), 20, 50, 60] 50
    (by decide) (by decide)).2.2.2.2 2 (by decide) (by decide) (by decide)
  simpa using h

/-- The Levenshtein distance matrix of `match_::levenshtein_distance`:
`levMatrix s t i j` is `distances[i][j]`, the unique solution of the DP
recurrence filled in by the two initialisation loops and the nested fill
loop (each cell depends only on already-filled cells). -/
def levMatrix (s t : List Int) : Nat → Nat → Nat
  | 0, 0 => 0
  | i + 1, 0 => i + 1
  | 0, j + 1 => j + 1
  | i + 1, j + 1 =>
    min (levMatrix s t i (j + 1) + 1)
      (min (levMatrix s t (i + 1) j + 1)
        (levMatrix s t i j + if s.getD i 0 = t.getD j 0 then 0 else 1))

/-- `ult_algo::sequence::match_::levenshtein_distance`. -/
def levenshtein_distance (s t : List Int) : Nat :=
  levMatrix s t s.length t.length

theorem levMatrix_zero_right (s t : List Int) : ∀ i, levMatrix s t i 0 = i := by
  intro i
  cases i with
  | zero => simp [levMatrix]
  | succ i => simp [levMatrix]

theorem levMatrix_zero_left (s t : List Int) : ∀ j, levMatrix s t 0 j = j := by
  intro j
  cases j with
  | zero => simp [levMatrix]
  | succ j => simp [levMatrix]

theorem levMatrix_symm (s t : List Int) :
    ∀ n i j, i + j ≤ n → levMatrix s t i j = levMatrix t s j i := by
  intro n
  induction n with
  | zero =>
    intro i j hij
    have : i = 0 ∧ j = 0 := by omega
    obtain ⟨rfl, rfl⟩ := this
    simp [levMatrix]
  | succ n ih =>
    intro i j hij
    match i, j with
    | 0, 0 => simp [levMatrix]
    | i + 1, 0 => rw [levMatrix_zero_right, levMatrix_zero_left]
    | 0, j + 1 => rw [levMatrix_zero_right, levMatrix_zero_left]
    | i + 1, j + 1 =>
      simp only [levMatrix]
      rw [ih i (j + 1) (by omega), ih (i + 1) j (by omega), ih i j (by omega)]
      have hcost : (if s.getD i 0 = t.getD j 0 then 0 else 1) =
          (if t.getD j 0 = s.getD i 0 then 0 else 1) := by
        by_cases h : s.getD i 0 = t.getD j 0
        · rw [if_pos h, if_pos h.symm]
        · rw [if_neg h, if_neg (fun h' => h h'.symm)]
      rw [hcost]
      omega

theorem levMatrix_diag (s : List Int) : ∀ i, levMatrix s s i i = 0 := by
  intro i
  induction i with
  | zero => simp [levMatrix]
  | succ i ih =>
    simp [levMatrix, ih]

/-- C8: Levenshtein distance is symmetric, zero on equal inputs, and equals
the length against the empty sequence. -/
theorem levenshtein_distance_props (a b : List Int) :
    levenshtein_distance a b = levenshtein_distance b a ∧
    levenshtein_distance a a = 0 ∧
    levenshtein_distance a [] = a.length := by
  refine ⟨?_, ?_, ?_⟩
  · rw [levenshtein_distance, levenshtein_distance]
    exact levMatrix_symm a b (a.length + b.length) a.length b.length (le_refl _)
  · rw [levenshtein_distance]
    exact levMatrix_diag a a.length
  · rw [levenshtein_distance]
    exact levMatrix_zero_right a [] a.length

/-- One scan step of `bitap`: the descending-`k` in-place update
`bit[k] := bit[k-1] && (x == pattern[k-1])` reads only not-yet-written
entries, so it equals this functional shift-and (bit 0 stays `true`). -/
def bitapUpdate (p : List Int) (bits : List Bool) (x : Int) : List Bool :=
  true :: (bits.zip p).map (fun bc => bc.1 && decide (x = bc.2))

/-- The scan loop of `bitap` over the remaining sequence; `i` is the index of
the current element.  The Rust return value `(i - pat_len + 1) as i64` is
computed in wrapping `usize` arithmetic; whenever the top bit is set we have
`i + 1 ≥ pat_len` (proved below), so it equals `(i + 1) - pat_len` in `Nat`. -/
def bitapLoop (p : List Int) : List Int → Nat → List Bool → Int
  | [], _, _ => -1
  | x :: rest, i, bits =>
    let b2 := bitapUpdate p bits x
    if b2.getD p.length false then ((i + 1 - p.length : Nat) : Int)
    else bitapLoop p rest (i + 1) b2

/-- `ult_algo::sequence::match_::bitap`. -/
def bitap (s p : List Int) : Int :=
  if p.length = 0 then 0
  else if p.length > s.length then -1
  else bitapLoop p s 0 ((List.replicate (p.length + 1) false).set 0 true)

/-- Meaning of the bit vector after processing the prefix `done`:
`bits[k]` holds exactly when the last `k` processed elements equal the first
`k` pattern elements. -/
def bitsSpec (p done : List Int) (bits : List Bool) : Prop :=
  bits.length = p.length + 1 ∧
  ∀ k, k ≤ p.length →
    (bits.getD k false = true ↔
      (k ≤ done.length ∧ done.drop (done.length - k) = p.take k))

theorem bitsSpec_init (p : List Int) :
    bitsSpec p [] ((List.replicate (p.length + 1) false).set 0 true) := by
  constructor
  · simp
  · intro k hk
    cases k with
    | zero =>
      constructor
      · intro _
        exact ⟨by simp, by simp⟩
      · intro _
        rw [List.getD_eq_getElem _ _ (by simp)]
        simp
    | succ k =>
      constructor
      · intro hbit
        exfalso
        rw [List.getD_eq_getElem _ _ (by simp; omega)] at hbit
        rw [List.getElem_set_ne (by omega)] at hbit
        simp at hbit
      · rintro ⟨hle, -⟩
        simp at hle

theorem getD_bitapUpdate_succ (p : List Int) (bits : List Bool) (x : Int)
    (j : Nat) (hj : j < p.length) (hlen : bits.length = p.length + 1) :
    (bitapUpdate p bits x).getD (j + 1) false =
      (bits.getD j false && decide (x = p.getD j 0)) := by
  have hzip : j < (bits.zip p).length := by
    rw [List.length_zip]; omega
  rw [bitapUpdate]
  show ((bits.zip p).map (fun bc => bc.1 && decide (x = bc.2))).getD j false = _
  rw [List.getD_eq_getElem _ _ (by simpa using hzip), List.getElem_map]
  rw [List.getElem_zip]
  rw [List.getD_eq_getElem _ _ (by omega), List.getD_eq_getElem _ _ hj]

theorem bitapUpdate_length (p : List Int) (bits : List Bool) (x : Int)
    (hlen : bits.length = p.length + 1) :
    (bitapUpdate p bits x).length = p.length + 1 := by
  rw [bitapUpdate]
  simp [List.length_zip, hlen]

theorem bitsSpec_step (p done : List Int) (bits : List Bool) (x : Int)
    (h : bitsSpec p done bits) :
    bitsSpec p (done ++ [x]) (bitapUpdate p bits x) := by
  obtain ⟨hlen, hspec⟩ := h
  constructor
  · exact bitapUpdate_length p bits x hlen
  · intro k hk
    cases k with
    | zero =>
      simp only [bitapUpdate]
      constructor
      · intro _
        constructor
        · omega
        · simp
      · intro _; rfl
    | succ k =>
      have hkp : k < p.length := by omega
      rw [getD_bitapUpdate_succ p bits x k hkp hlen]
      have hrec := hspec k (by omega)
      constructor
      · intro hbit
        rw [Bool.and_eq_true] at hbit
        obtain ⟨hb, hx⟩ := hbit
        obtain ⟨hkd, hdrop⟩ := hrec.mp hb
        have hx' : x = p.getD k 0 := of_decide_eq_true hx
        constructor
        · simp; omega
        · have hlen' : (done ++ [x]).length = done.length + 1 := by simp
          rw [hlen']
          have : done.length + 1 - (k + 1) = done.length - k := by omega
          rw [this]
          rw [List.drop_append_of_le_length (by omega)]
          rw [hdrop]
          have : p.take (k + 1) = p.take k ++ [p.getD k 0] := by
            rw [List.take_succ]
            congr 1
            rw [List.getD_eq_getElem _ _ hkp]
            rw [List.getElem?_eq_getElem hkp]
            rfl
          rw [this, hx']
      · intro ⟨hkd, hdrop⟩
        have hkd' : k ≤ done.length := by simp at hkd; omega
        have hlen' : (done ++ [x]).length = done.length + 1 := by simp
        rw [hlen'] at hdrop
        have heq : done.length + 1 - (k + 1) = done.length - k := by omega
        rw [heq, List.drop_append_of_le_length (by omega)] at hdrop
        have htake : p.take (k + 1) = p.take k ++ [p.getD k 0] := by
          rw [List.take_succ]
          congr 1
          rw [List.getD_eq_getElem _ _ hkp, List.getElem?_eq_getElem hkp]
          rfl
        rw [htake] at hdrop
        have hlens : (done.drop (done.length - k)).length = k := by
          rw [List.length_drop]; omega
        obtain ⟨h1, h2⟩ := List.append_inj hdrop (by simp [hlens, List.length_take]; omega)
        have hx : x = p.getD k 0 := by simpa using h2
        rw [Bool.and_eq_true]
        exact ⟨hrec.mpr ⟨hkd', h1⟩, decide_eq_true hx⟩

/-- Main loop invariant for `bitap`: if the loop returns a nonnegative index,
it is the first (leftmost) occurrence of the pattern. -/
theorem bitapLoop_spec (p : List Int) (hp : 0 < p.length) :
    ∀ (rest done : List Int) (bits : List Bool),
      bitsSpec p done bits →
      (∀ st, st + p.length ≤ done.length →
        ((done ++ rest).drop st).take p.length ≠ p) →
      ∀ n : Nat, bitapLoop p rest done.length bits = (n : Int) →
        ((done ++ rest).drop n).take p.length = p ∧
        ∀ j, j < n → ((done ++ rest).drop j).take p.length ≠ p := by
  intro rest
  induction rest with
  | nil =>
    intro done bits hspec hno n hret
    rw [bitapLoop] at hret
    omega
  | cons x rest ih =>
    intro done bits hspec hno n hret
    rw [bitapLoop] at hret
    set b2 := bitapUpdate p bits x with hb2
    have hspec' : bitsSpec p (done ++ [x]) b2 := bitsSpec_step p done bits x hspec
    by_cases hhit : b2.getD p.length false = true
    · rw [if_pos hhit] at hret
      obtain ⟨hmd, hdrop⟩ := (hspec'.2 p.length (le_refl _)).mp hhit
      have hmd' : p.length ≤ done.length + 1 := by simpa using hmd
      have hn : n = done.length + 1 - p.length := by omega
      subst hn
      have hsame : done ++ x :: rest = (done ++ [x]) ++ rest := by simp
      rw [hsame]
      constructor
      · -- the occurrence just found
        have hlen1 : (done ++ [x]).length = done.length + 1 := by simp
        rw [List.drop_append_of_le_length (by omega)]
        have hd : (done ++ [x]).drop (done.length + 1 - p.length) = p.take p.length := by
          rw [← hdrop, hlen1]
        rw [hd, List.take_length, List.take_append_of_le_length (le_refl p.length),
          List.take_length]
      · intro j hj
        have hjno : j + p.length ≤ done.length := by omega
        have hnoj := hno j hjno
        intro hcontra
        apply hnoj
        rw [show done ++ x :: rest = done ++ [x] ++ rest by simp]
        exact hcontra
    · rw [if_neg (by simpa using hhit)] at hret
      have hlen1 : (done ++ [x]).length = done.length + 1 := by simp
      have hres := ih (done ++ [x]) b2 hspec' ?_ n (by rw [hlen1]; simpa using hret)
      · rw [show done ++ x :: rest = (done ++ [x]) ++ rest by simp]
        exact hres
      · intro st hst
        rw [hlen1] at hst
        rcases Nat.lt_or_ge (st + p.length) (done.length + 1) with hlt | hge
        · have hnost := hno st (by omega)
          intro hcontra
          apply hnost
          rw [show done ++ x :: rest = done ++ [x] ++ rest by simp]
          exact hcontra
        · -- the occurrence would end exactly at the new element: bit says no
          have hst' : st + p.length = done.length + 1 := by omega
          intro hcontra
          apply hhit
          rw [hb2]
          apply ((bitsSpec_step p done bits x hspec).2 p.length (le_refl _)).mpr
          refine ⟨by simpa using (by omega : p.length ≤ done.length + 1), ?_⟩
          rw [hlen1, List.take_length]
          rw [show done.length + 1 - p.length = st by omega]
          rw [List.drop_append_of_le_length (by omega)] at hcontra
          have hdroplen : ((done ++ [x]).drop st).length = p.length := by
            rw [List.length_drop, hlen1]; omega
          rw [← hdroplen] at hcontra
          rw [List.take_append_of_le_length (le_refl _), List.take_length] at hcontra
          exact hcontra

/-- C3: `bitap` returns 0 on the empty pattern, not-found when the pattern is
longer than the sequence, and any returned nonnegative index is the leftmost
occurrence of the pattern. -/
theorem bitap_correct (s p : List Int) :
    (p = [] → bitap s p = 0) ∧
    (s.length < p.length → bitap s p = -1) ∧
    (∀ n : Nat, bitap s p = (n : Int) →
      ((s.drop n).take p.length = p ∧
        ∀ j, j < n → (s.drop j).take p.length ≠ p)) := by
  refine ⟨?_, ?_, ?_⟩
  · intro hp
    rw [bitap, if_pos (by rw [hp]; rfl)]
  · intro hlt
    rw [bitap]
    by_cases h0 : p.length = 0
    · omega
    · rw [if_neg h0, if_pos (by omega)]
  · intro n hret
    by_cases h0 : p.length = 0
    · rw [bitap, if_pos h0] at hret
      have hn : n = 0 := by omega
      subst hn
      refine ⟨?_, fun j hj => absurd hj (by omega)⟩
      rw [h0, List.length_eq_zero.mp h0]
      simp
    · by_cases h1 : p.length > s.length
      · rw [bitap, if_neg h0, if_pos h1] at hret
        exfalso
        omega
      · rw [bitap, if_neg h0, if_neg h1] at hret
        have hres := bitapLoop_spec p (by omega) s []
          ((List.replicate (p.length + 1) false).set 0 true)
          (bitsSpec_init p)
          (fun st hst => by
            exfalso
            rw [show ([] : List Int).length = 0 from rfl] at hst
            omega)
          n (by simpa using hret)
        simpa using hres

/-- C3 witness: the correctness statement applied to `[3,4,5,7,3,2,1]` and the
pattern `[4,5,7,3]`, whose leftmost occurrence starts at index 1. -/
theorem bitap_correct_witness :
    ((([(3 : Int), 4, 5, 7, 3, 2, 1]).drop 1).take 4 = [(4 : Int), 5, 7, 3] ∧
      ∀ j, j < 1 → (([(3 : Int), 4, 5, 7, 3, 2, 1]).drop j).take 4 ≠ [(4 : Int), 5, 7, 3]) := by
  have h := (bitap_correct [(3 : Int), 4, 5, 7, 3, 2, 1] [(4 : Int), 5, 7, 3]).2.2 1 (by decide)
  simp only [List.length_cons, List.length_nil] at h
  exact h

/-- The bound-doubling loop of `exponential` (`none` = budget exhausted,
proved unreachable for the supplied budget). -/
def expLoop (s : List Int) (v : Int) : Nat → Nat → Option Nat
  | 0, bound =>
    if bound < s.length ∧ s.getD bound 0 < v then none else some bound
  | fuel + 1, bound =>
    if bound < s.length ∧ s.getD bound 0 < v then expLoop s v fuel (bound * 2)
    else some bound

/-- `ult_algo::sequence::search::exponential`.  The outer `Option` layer is the
iteration budget (`none` never occurs: `expLoop_spec`); the inner `Option Nat`
is the function's own result. -/
def exponential (s : List Int) (v : Int) : Option (Option Nat) :=
  if s.length = 0 then some none
  else
    match expLoop s v (s.length + 1) 1 with
    | none => none
    | some bound =>
      let lower_bound := bound / 2
      let upper_bound := min (bound + 1) s.length
      some (match (binary ((s.drop lower_bound).take (upper_bound - lower_bound)) v).index with
            | some i => some (lower_bound + i)
            | none => none)

theorem expLoop_spec (s : List Int) (v : Int) :
    ∀ (fuel bound : Nat), 1 ≤ bound → s.length ≤ bound + fuel →
      ∃ b, expLoop s v fuel bound = some b ∧ 1 ≤ b ∧
        (b < s.length → ¬ s.getD b 0 < v) ∧
        (b = bound ∨ (b / 2 < s.length ∧ s.getD (b / 2) 0 < v)) := by
  intro fuel
  induction fuel with
  | zero =>
    intro bound hb hlen
    rw [expLoop]
    rw [if_neg (by push_neg; intro h; omega)]
    exact ⟨bound, rfl, hb, fun h => by omega, Or.inl rfl⟩
  | succ fuel ih =>
    intro bound hb hlen
    rw [expLoop]
    by_cases hc : bound < s.length ∧ s.getD bound 0 < v
    · rw [if_pos hc]
      obtain ⟨b, hb', h1, h2, h3⟩ := ih (bound * 2) (by omega) (by omega)
      refine ⟨b, hb', h1, h2, ?_⟩
      rcases h3 with rfl | h3
      · right
        rw [show bound * 2 / 2 = bound by omega]
        exact ⟨hc.1, hc.2⟩
      · right; exact h3
    · rw [if_neg hc]
      push_neg at hc
      exact ⟨bound, rfl, hb, fun h => not_lt.mpr (hc h), Or.inl rfl⟩

/-- A sorted sublist view: `(s.drop lo).take k` is sorted when `s` is. -/
theorem sorted_slice (s : List Int) (hs : List.Pairwise (· ≤ ·) s) (lo k : Nat) :
    List.Pairwise (· ≤ ·) ((s.drop lo).take k) :=
  List.Pairwise.sublist ((List.take_sublist _ _).trans (List.drop_sublist _ _)) hs

theorem getD_slice (s : List Int) (lo k i : Nat) (hi : i < k)
    (hlen : lo + i < s.length) :
    ((s.drop lo).take k).getD i 0 = s.getD (lo + i) 0 := by
  have hdrop : i < (s.drop lo).length := by rw [List.length_drop]; omega
  have htake : i < ((s.drop lo).take k).length := by
    rw [List.length_take]; omega
  rw [List.getD_eq_getElem _ _ htake, List.getD_eq_getElem _ _ hlen]
  rw [List.getElem_take, List.getElem_drop]

theorem slice_length (s : List Int) (lo k : Nat) (h : lo + k ≤ s.length) :
    ((s.drop lo).take k).length = k := by
  rw [List.length_take, List.length_drop]
  omega

/-- `exponential` on a sorted list: never exhausts its budget, and agrees with
membership (hence with `binary`). -/
theorem exponential_spec (s : List Int) (v : Int) (hs : List.Pairwise (· ≤ ·) s) :
    ∃ r, exponential s v = some r ∧ (r = none ↔ v ∉ s) ∧
      (∀ i, r = some i → i < s.length ∧ s.getD i 0 = v) := by
  by_cases hlen : s.length = 0
  · refine ⟨none, by rw [exponential, if_pos hlen], ?_, by simp⟩
    simp only [true_iff]
    rw [List.length_eq_zero.mp hlen]
    simp
  · obtain ⟨b, hexp, hb1, hpost1, hpost2⟩ :=
      expLoop_spec s v (s.length + 1) 1 (le_refl 1) (by omega)
    have hlob : b / 2 ≤ b := Nat.div_le_self b 2
    have hhile : min (b + 1) s.length ≤ s.length := min_le_right _ _
    have hlole : b / 2 ≤ min (b + 1) s.length := by
      rcases Nat.lt_or_ge b s.length with h | h
      · have he : min (b + 1) s.length = b + 1 := min_eq_left (by omega)
        omega
      · have he : min (b + 1) s.length = s.length := min_eq_right (by omega)
        rcases hpost2 with rfl | ⟨hb2, -⟩
        · omega
        · omega
    have hslen : ((s.drop (b / 2)).take (min (b + 1) s.length - b / 2)).length =
        min (b + 1) s.length - b / 2 :=
      slice_length s _ _ (by omega)
    have hmem : v ∈ s ↔ v ∈ (s.drop (b / 2)).take (min (b + 1) s.length - b / 2) := by
      constructor
      · intro hv
        have hP : ∃ j, j < s.length ∧ s.getD j 0 = v := mem_getD s v hv
        obtain ⟨j0, hj0len, hj0v, hj0min⟩ :
            ∃ j0, j0 < s.length ∧ s.getD j0 0 = v ∧
              ∀ m, m < j0 → ¬ (m < s.length ∧ s.getD m 0 = v) :=
          ⟨Nat.find hP, (Nat.find_spec hP).1, (Nat.find_spec hP).2,
            fun m hm => Nat.find_min hP hm⟩
        have hj0lo : b / 2 ≤ j0 := by
          rcases hpost2 with rfl | ⟨hlolen, hlov⟩
          · omega
          · by_contra hcon
            have hle : s.getD j0 0 ≤ s.getD (b / 2) 0 :=
              sorted_getD_le s hs j0 (b / 2) (by omega) hlolen
            omega
        have hj0hi : j0 < min (b + 1) s.length := by
          rcases Nat.lt_or_ge b s.length with hblen | hblen
          · have he : min (b + 1) s.length = b + 1 := min_eq_left (by omega)
            have hvb : ¬ s.getD b 0 < v := hpost1 hblen
            have hj0b : j0 ≤ b := by
              by_contra hcon
              rcases lt_or_eq_of_le (not_lt.mp hvb) with hgt | heq
              · have hble : s.getD b 0 ≤ s.getD j0 0 :=
                  sorted_getD_le s hs b j0 (by omega) hj0len
                omega
              · exact hj0min b (by omega) ⟨hblen, heq.symm⟩
            omega
          · have he : min (b + 1) s.length = s.length := min_eq_right (by omega)
            omega
        refine List.mem_iff_getElem.mpr ⟨j0 - b / 2, by rw [hslen]; omega, ?_⟩
        have hg := getD_slice s (b / 2) (min (b + 1) s.length - b / 2) (j0 - b / 2)
          (by omega) (by omega)
        rw [List.getD_eq_getElem _ 0 (by rw [hslen]; omega)] at hg
        rw [hg, show b / 2 + (j0 - b / 2) = j0 by omega]
        exact hj0v
      · intro hv
        exact List.Sublist.mem hv ((List.take_sublist _ _).trans (List.drop_sublist _ _))
    have hsliceSorted : List.Pairwise (· ≤ ·)
        ((s.drop (b / 2)).take (min (b + 1) s.length - b / 2)) :=
      sorted_slice s hs _ _
    have hexp2 : exponential s v = some
        (match (binary ((s.drop (b / 2)).take (min (b + 1) s.length - b / 2)) v).index with
          | some i => some (b / 2 + i)
          | none => none) := by
      rw [exponential, if_neg hlen, hexp]
    rcases hidx : (binary ((s.drop (b / 2)).take (min (b + 1) s.length - b / 2)) v).index
      with _ | i
    · refine ⟨none, by rw [hexp2, hidx], ?_, by simp⟩
      simp only [true_iff]
      rw [hmem]
      exact (binary_none_iff _ v hsliceSorted).mp hidx
    · obtain ⟨-, hilen, hiv⟩ := binary_found _ v hsliceSorted i hidx
      refine ⟨some (b / 2 + i), by rw [hexp2, hidx], ?_, ?_⟩
      · constructor
        · intro h; exact absurd h (by simp)
        · intro hnot
          exfalso
          apply hnot
          rw [hmem, ← hiv]
          exact getD_mem _ i hilen
      · intro j hj
        obtain rfl : b / 2 + i = j := by simpa using hj
        rw [hslen] at hilen
        refine ⟨by omega, ?_⟩
        rw [← hiv, getD_slice s (b / 2) (min (b + 1) s.length - b / 2) i hilen (by omega)]

/-- The interpolation-probe loop of `interpolation`.  The outer `Option` is
`none` when the iteration budget runs out or when `T::to_usize(&offset)`
panics on a negative offset (both proved unreachable on sorted input); the
inner `Option Nat` is the function's own result.  `Int.tdiv` is Rust's
truncating `/` on signed integers. -/
def interpLoop (s : List Int) (v : Int) : Nat → Nat → Nat → Option (Option Nat)
  | 0, low, high =>
    if s.getD high 0 ≠ s.getD low 0 ∧ s.getD low 0 ≤ v ∧ v ≤ s.getD high 0 then none
    else some (if s.getD low 0 = v then some low else none)
  | fuel + 1, low, high =>
    if s.getD high 0 ≠ s.getD low 0 ∧ s.getD low 0 ≤ v ∧ v ≤ s.getD high 0 then
      let offset : Int :=
        Int.tdiv ((v - s.getD low 0) * ((high - low : Nat) : Int)) (s.getD high 0 - s.getD low 0)
      if offset < 0 then none
      else
        let mid := low + offset.toNat
        if s.getD mid 0 < v then interpLoop s v fuel (mid + 1) high
        else if v < s.getD mid 0 then interpLoop s v fuel low (mid - 1)
        else some (some mid)
    else some (if s.getD low 0 = v then some low else none)

/-- `ult_algo::sequence::search::interpolation`. -/
def interpolation (s : List Int) (v : Int) : Option (Option Nat) :=
  if s.length = 0 then some none
  else interpLoop s v s.length 0 (s.length - 1)

theorem interpLoop_spec (s : List Int) (v : Int) (hs : List.Pairwise (· ≤ ·) s) :
    ∀ (fuel low high : Nat),
      low ≤ high → high < s.length → high - low < fuel →
      (∀ j, j < s.length → s.getD j 0 = v → low ≤ j ∧ j ≤ high) →
      ∃ r, interpLoop s v fuel low high = some r ∧
        (∀ i, r = some i → i < s.length ∧ s.getD i 0 = v) ∧
        (r = none → ∀ j, j < s.length → s.getD j 0 ≠ v) := by
  intro fuel
  induction fuel with
  | zero => intro low high _ _ hm; omega
  | succ fuel ih =>
    intro low high hlh hhi hm hwin
    rw [interpLoop]
    by_cases hguard : s.getD high 0 ≠ s.getD low 0 ∧ s.getD low 0 ≤ v ∧ v ≤ s.getD high 0
    · rw [if_pos hguard]
      obtain ⟨hne, hlo, hhiv⟩ := hguard
      have hlh' : s.getD low 0 ≤ s.getD high 0 := sorted_getD_le s hs low high hlh hhi
      have hden : (0 : Int) < s.getD high 0 - s.getD low 0 := by
        rcases lt_or_eq_of_le hlh' with h | h
        · omega
        · exact absurd h.symm hne
      have hnum : (0 : Int) ≤ (v - s.getD low 0) * ((high - low : Nat) : Int) := by
        apply mul_nonneg (by omega)
        positivity
      have hdiv : Int.tdiv ((v - s.getD low 0) * ((high - low : Nat) : Int))
          (s.getD high 0 - s.getD low 0) =
          ((v - s.getD low 0) * ((high - low : Nat) : Int)) / (s.getD high 0 - s.getD low 0) :=
        Int.tdiv_eq_ediv hnum (by omega)
      have hoff_nonneg : ¬ (Int.tdiv ((v - s.getD low 0) * ((high - low : Nat) : Int))
          (s.getD high 0 - s.getD low 0) < 0) := by
        rw [hdiv]
        push_neg
        exact Int.ediv_nonneg hnum (by omega)
      rw [if_neg hoff_nonneg]
      have hoff_le : Int.tdiv ((v - s.getD low 0) * ((high - low : Nat) : Int))
          (s.getD high 0 - s.getD low 0) ≤ ((high - low : Nat) : Int) := by
        rw [hdiv]
        have h1 : (v - s.getD low 0) * ((high - low : Nat) : Int) ≤
            (s.getD high 0 - s.getD low 0) * ((high - low : Nat) : Int) := by
          apply mul_le_mul_of_nonneg_right (by omega)
          positivity
        calc ((v - s.getD low 0) * ((high - low : Nat) : Int)) / (s.getD high 0 - s.getD low 0)
            ≤ ((s.getD high 0 - s.getD low 0) * ((high - low : Nat) : Int)) /
              (s.getD high 0 - s.getD low 0) := Int.ediv_le_ediv hden h1
          _ = ((high - low : Nat) : Int) := Int.mul_ediv_cancel_left _ (by omega)
      set off : Int := Int.tdiv ((v - s.getD low 0) * ((high - low : Nat) : Int))
          (s.getD high 0 - s.getD low 0) with hoffdef
      clear_value off
      have hmid_le : low + off.toNat ≤ high := by omega
      have hmid_len : low + off.toNat < s.length := by omega
      by_cases hc1 : s.getD (low + off.toNat) 0 < v
      · rw [if_pos hc1]
        have hmidlt : low + off.toNat < high := by
          rcases Nat.lt_or_ge (low + off.toNat) high with h | h
          · exact h
          · exfalso
            have heq : low + off.toNat = high := by omega
            rw [heq] at hc1
            omega
        refine ih (low + off.toNat + 1) high (by omega) hhi (by omega) ?_
        intro j hj hjv
        obtain ⟨h1, h2⟩ := hwin j hj hjv
        refine ⟨?_, h2⟩
        by_contra hcon
        have := sorted_getD_le s hs j (low + off.toNat) (by omega) hmid_len
        omega
      · rw [if_neg hc1]
        by_cases hc2 : v < s.getD (low + off.toNat) 0
        · rw [if_pos hc2]
          have hmid_gt : low < low + off.toNat := by
            rcases Nat.lt_or_ge low (low + off.toNat) with h | h
            · exact h
            · exfalso
              have : low + off.toNat = low := by omega
              rw [this] at hc2
              omega
          refine ih low (low + off.toNat - 1) (by omega) (by omega) (by omega) ?_
          intro j hj hjv
          obtain ⟨h1, h2⟩ := hwin j hj hjv
          refine ⟨h1, ?_⟩
          by_contra hcon
          have := sorted_getD_le s hs (low + off.toNat) j (by omega) hj
          omega
        · rw [if_neg hc2]
          refine ⟨some (low + off.toNat), rfl, ?_, by simp⟩
          intro i hi
          obtain rfl : low + off.toNat = i := by simpa using hi
          exact ⟨hmid_len, by omega⟩
    · rw [if_neg hguard]
      push_neg at hguard
      by_cases hcase : s.getD high 0 = s.getD low 0
      · -- constant window
        by_cases hfound : s.getD low 0 = v
        · rw [if_pos hfound]
          refine ⟨some low, rfl, ?_, by simp⟩
          intro i hi
          obtain rfl : low = i := by simpa using hi
          exact ⟨by omega, hfound⟩
        · rw [if_neg hfound]
          refine ⟨none, rfl, by simp, ?_⟩
          intro _ j hj hjv
          obtain ⟨h1, h2⟩ := hwin j hj hjv
          have hle1 : s.getD low 0 ≤ s.getD j 0 := sorted_getD_le s hs low j h1 hj
          have hle2 : s.getD j 0 ≤ s.getD high 0 := sorted_getD_le s hs j high h2 hhi
          apply hfound
          omega
      · have hout := hguard hcase
        -- v is outside [s[low], s[high]]
        by_cases hvlow : s.getD low 0 ≤ v
        · have hvhigh : s.getD high 0 < v := by
            rcases Nat.lt_or_ge 0 1 with _ | _
            · exact lt_of_not_le (fun h => hcase (by
                have := hout hvlow
                omega))
            · omega
          rw [if_neg (by
            intro h
            have hle1 : s.getD low 0 ≤ s.getD high 0 := sorted_getD_le s hs low high hlh hhi
            omega)]
          refine ⟨none, rfl, by simp, ?_⟩
          intro _ j hj hjv
          obtain ⟨h1, h2⟩ := hwin j hj hjv
          have hle2 : s.getD j 0 ≤ s.getD high 0 := sorted_getD_le s hs j high h2 hhi
          omega
        · push_neg at hvlow
          rw [if_neg (by intro h; omega)]
          refine ⟨none, rfl, by simp, ?_⟩
          intro _ j hj hjv
          obtain ⟨h1, h2⟩ := hwin j hj hjv
          have hle1 : s.getD low 0 ≤ s.getD j 0 := sorted_getD_le s hs low j h1 hj
          omega

/-- `interpolation` on a sorted list: never exhausts its budget and never hits
the negative-cast panic, and agrees with membership. -/
theorem interpolation_spec (s : List Int) (v : Int) (hs : List.Pairwise (· ≤ ·) s) :
    ∃ r, interpolation s v = some r ∧ (r = none ↔ v ∉ s) ∧
      (∀ i, r = some i → i < s.length ∧ s.getD i 0 = v) := by
  by_cases hlen : s.length = 0
  · refine ⟨none, by rw [interpolation, if_pos hlen], ?_, by simp⟩
    simp only [true_iff]
    rw [List.length_eq_zero.mp hlen]
    simp
  · obtain ⟨r, hr, hsome, hnone⟩ :=
      interpLoop_spec s v hs s.length 0 (s.length - 1) (by omega) (by omega) (by omega)
        (fun j hj _ => by omega)
    refine ⟨r, by rw [interpolation, if_neg hlen]; exact hr, ?_, hsome⟩
    constructor
    · intro hrn
      intro hmem
      obtain ⟨j, hj, hjv⟩ := mem_getD s v hmem
      exact absurd hjv (hnone hrn j hj)
    · intro hnotmem
      rcases hrr : r with _ | i
      · rfl
      · exfalso
        obtain ⟨hilen, hiv⟩ := hsome i hrr
        exact hnotmem (by rw [← hiv]; exact getD_mem s i hilen)

/-- C4: on every sorted (integer) sequence, `exponential` and `interpolation`
agree with `binary`: each returns the index of an element equal to `v` exactly
when `binary` finds `v` present, and returns not-found exactly when `binary`
reports `v` absent. -/
theorem exponential_interpolation_agree (s : List Int) (v : Int)
    (hs : List.Pairwise (· ≤ ·) s) :
    ∃ re ri : Option Nat,
      exponential s v = some re ∧ interpolation s v = some ri ∧
      (re = none ↔ (binary s v).index = none) ∧
      (ri = none ↔ (binary s v).index = none) ∧
      (∀ i, re = some i → i < s.length ∧ s.getD i 0 = v) ∧
      (∀ i, ri = some i → i < s.length ∧ s.getD i 0 = v) ∧
      (∀ i, (binary s v).index = some i → i < s.length ∧ s.getD i 0 = v) := by
  obtain ⟨re, hre, hre_none, hre_some⟩ := exponential_spec s v hs
  obtain ⟨ri, hri, hri_none, hri_some⟩ := interpolation_spec s v hs
  have hb := binary_none_iff s v hs
  refine ⟨re, ri, hre, hri, ?_, ?_, hre_some, hri_some, ?_⟩
  · rw [hre_none, ← hb]
  · rw [hri_none, ← hb]
  · intro i hi
    obtain ⟨-, hlen, hv⟩ := binary_found s v hs i hi
    exact ⟨hlen, hv⟩

/-- C4 witness: instantiation on the sorted list `[10, 20, 30]` probing `20`. -/
theorem exponential_interpolation_agree_witness :
    ∃ re ri : Option Nat,
      exponential [(10 : Int), 20, 30] 20 = some re ∧
      interpolation [(10 : Int), 20, 30] 20 = some ri ∧
      (re = none ↔ (binary [(10 : Int), 20, 30] 20).index = none) ∧
      (ri = none ↔ (binary [(10 : Int), 20, 30] 20).index = none) ∧
      (∀ i, re = some i → i < ([(10 : Int), 20, 30]).length ∧
        ([(10 : Int), 20, 30]).getD i 0 = 20) ∧
      (∀ i, ri = some i → i < ([(10 : Int), 20, 30]).length ∧
        ([(10 : Int), 20, 30]).getD i 0 = 20) ∧
      (∀ i, (binary [(10 : Int), 20, 30] 20).index = some i →
        i < ([(10 : Int), 20, 30]).length ∧ ([(10 : Int), 20, 30]).getD i 0 = 20) :=
  exponential_interpolation_agree [(10 : Int), 20, 30] 20 (by decide)

/-- The `for i in 0..last_idx` loop of `selection::partition`:
`c` is the number of remaining iterations (`c = last - i`). -/
def partFor (last : Nat) : Nat → List Int → Nat → Nat → List Int × Nat
  | 0, l, _i, store => (l, store)
  | c + 1, l, i, store =>
    if l.getD i 0 < l.getD last 0 then partFor last c (lswap l store i) (i + 1) (store + 1)
    else partFor last c l (i + 1) store

/-- `ult_algo::sequence::selection::partition` (Lomuto partition). -/
def partition (l : List Int) (pivot_idx : Nat) : List Int × Nat :=
  let last_idx := l.length - 1
  let l1 := lswap l pivot_idx last_idx
  let r := partFor last_idx last_idx l1 0 0
  (lswap r.1 r.2 last_idx, r.2)

theorem partFor_spec (last : Nat) :
    ∀ (c i store : Nat) (l : List Int),
      c = last - i → i ≤ last → store ≤ i → last < l.length →
      (∀ j, j < store → l.getD j 0 < l.getD last 0) →
      (∀ j, store ≤ j → j < i → ¬ l.getD j 0 < l.getD last 0) →
      List.Perm (partFor last c l i store).1 l ∧
      (partFor last c l i store).1.length = l.length ∧
      (partFor last c l i store).2 ≤ last ∧
      (partFor last c l i store).1.getD last 0 = l.getD last 0 ∧
      (∀ j, j < (partFor last c l i store).2 →
        (partFor last c l i store).1.getD j 0 < (partFor last c l i store).1.getD last 0) ∧
      (∀ j, (partFor last c l i store).2 ≤ j → j < last →
        ¬ (partFor last c l i store).1.getD j 0 < (partFor last c l i store).1.getD last 0) := by
  intro c
  induction c with
  | zero =>
    intro i store l hc hi hstore hlast h1 h2
    have hieq : i = last := by omega
    subst hieq
    rw [partFor]
    exact ⟨List.Perm.refl l, rfl, hstore, rfl, h1, fun j hj1 hj2 => h2 j hj1 hj2⟩
  | succ c ih =>
    intro i store l hc hi hstore hlast h1 h2
    have hilast : i < last := by omega
    have hilen : i < l.length := by omega
    have hstlen : store < l.length := by omega
    rw [partFor]
    by_cases hcmp : l.getD i 0 < l.getD last 0
    · rw [if_pos hcmp]
      have hswlen : (lswap l store i).length = l.length := lswap_length l store i
      have hswlast : (lswap l store i).getD last 0 = l.getD last 0 := by
        rw [getD_lswap l store i last hstlen hilen,
          if_neg (by omega), if_neg (by omega)]
      have hres := ih (i + 1) (store + 1) (lswap l store i) (by omega) (by omega) (by omega)
        (by omega) ?_ ?_
      · obtain ⟨hp, hlen', hst', hlast', hh1, hh2⟩ := hres
        refine ⟨hp.trans (lswap_perm l store i hstlen hilen), by rw [hlen', hswlen],
          hst', by rw [hlast', hswlast], hh1, hh2⟩
      · -- elements strictly below the new store are below the pivot
        intro j hj
        rw [hswlast, getD_lswap l store i j hstlen hilen]
        by_cases hji : j = i
        · rw [if_pos hji]
          have hsi : store = i := by omega
          rw [hsi]
          exact hcmp
        · rw [if_neg hji]
          by_cases hjs : j = store
          · rw [if_pos hjs]
            exact hcmp
          · rw [if_neg hjs]
            exact h1 j (by omega)
      · -- elements in the middle region are not below the pivot
        intro j hj1 hj2
        rw [hswlast, getD_lswap l store i j hstlen hilen]
        by_cases hji : j = i
        · rw [if_pos hji]
          rcases Nat.lt_or_ge store i with hsi | hsi
          · exact h2 store (le_refl store) hsi
          · -- store = i: the region (store+1, i+1) is empty
            omega
        · rw [if_neg hji]
          by_cases hjs : j = store
          · omega
          · rw [if_neg hjs]
            exact h2 j (by omega) (by omega)
    · rw [if_neg hcmp]
      refine ih (i + 1) store l (by omega) (by omega) (by omega) hlast h1 ?_
      intro j hj1 hj2
      by_cases hji : j = i
      · rw [hji]; exact hcmp
      · exact h2 j hj1 (by omega)

theorem partition_spec (l : List Int) (pivot_idx : Nat)
    (hp : pivot_idx < l.length) (h1 : 1 ≤ l.length) :
    List.Perm (partition l pivot_idx).1 l ∧
    (partition l pivot_idx).1.length = l.length ∧
    (partition l pivot_idx).2 < l.length ∧
    (∀ j, j < (partition l pivot_idx).2 →
      (partition l pivot_idx).1.getD j 0 <
        (partition l pivot_idx).1.getD (partition l pivot_idx).2 0) ∧
    (∀ j, (partition l pivot_idx).2 < j → j < l.length →
      (partition l pivot_idx).1.getD (partition l pivot_idx).2 0 ≤
        (partition l pivot_idx).1.getD j 0) := by
  have hlast : l.length - 1 < l.length := by omega
  have hl1len : (lswap l pivot_idx (l.length - 1)).length = l.length :=
    lswap_length l pivot_idx (l.length - 1)
  have hspec := partFor_spec (l.length - 1) (l.length - 1) 0 0
    (lswap l pivot_idx (l.length - 1)) (by omega) (by omega) (by omega) (by omega)
    (by omega) (by omega)
  obtain ⟨hperm, hlen, hst, hlastval, hh1, hh2⟩ := hspec
  set r := partFor (l.length - 1) (l.length - 1) (lswap l pivot_idx (l.length - 1)) 0 0
    with hrdef
  have hstlen : r.2 < l.length := by omega
  have hr2len : r.2 < r.1.length := by omega
  have hlastlen : l.length - 1 < r.1.length := by omega
  have hfinlen : (lswap r.1 r.2 (l.length - 1)).length = l.length := by
    rw [lswap_length, hlen, hl1len]
  have hpart1 : (partition l pivot_idx).1 = lswap r.1 r.2 (l.length - 1) := rfl
  have hpart2 : (partition l pivot_idx).2 = r.2 := rfl
  rw [hpart1, hpart2]
  have hpivotval : (lswap r.1 r.2 (l.length - 1)).getD r.2 0 = r.1.getD (l.length - 1) 0 := by
    rw [getD_lswap r.1 r.2 (l.length - 1) r.2 hr2len hlastlen]
    by_cases he : r.2 = l.length - 1
    · rw [if_pos he, he]
    · rw [if_neg he, if_pos rfl]
  refine ⟨?_, hfinlen, hstlen, ?_, ?_⟩
  · exact ((lswap_perm r.1 r.2 (l.length - 1) hr2len hlastlen).trans hperm).trans
      (lswap_perm l pivot_idx (l.length - 1) hp hlast)
  · intro j hj
    rw [hpivotval, getD_lswap r.1 r.2 (l.length - 1) j hr2len hlastlen]
    by_cases hje : j = l.length - 1
    · -- impossible: j < r.2 ≤ last
      omega
    · rw [if_neg hje, if_neg (by omega)]
      have := hh1 j hj
      rw [hlastval] at this ⊢
      exact this
  · intro j hj1 hj2
    rw [hpivotval, getD_lswap r.1 r.2 (l.length - 1) j hr2len hlastlen]
    by_cases hje : j = l.length - 1
    · rw [if_pos hje]
      rcases Nat.lt_or_ge r.2 (l.length - 1) with hrl | hrl
      · have := hh2 r.2 (le_refl r.2) hrl
        rw [hlastval] at this ⊢
        omega
      · -- r.2 = last: region (r.2, length) is empty
        omega
    · rw [if_neg hje, if_neg (by omega)]
      have := hh2 j (by omega) (by omega)
      rw [hlastval] at this ⊢
      omega

theorem sort_perm_congr (a b : List Int) (h : List.Perm a b) :
    List.insertionSort (· ≤ ·) a = List.insertionSort (· ≤ ·) b := by
  apply List.eq_of_perm_of_sorted _ (List.sorted_insertionSort _ a)
    (List.sorted_insertionSort _ b)
  exact (List.perm_insertionSort _ a).trans (h.trans (List.perm_insertionSort _ b).symm)

/-- Sorting a list that is Lomuto-partitioned around position `p` decomposes
into the sorted left part, the pivot, and the sorted right part. -/
theorem sort_decomp (l : List Int) (p : Nat) (hp : p < l.length)
    (hleft : ∀ j, j < p → l.getD j 0 < l.getD p 0)
    (hright : ∀ j, p < j → j < l.length → l.getD p 0 ≤ l.getD j 0) :
    List.insertionSort (· ≤ ·) l =
      List.insertionSort (· ≤ ·) (l.take p) ++
        l.getD p 0 :: List.insertionSort (· ≤ ·) (l.drop (p + 1)) := by
  have hmem_take : ∀ x ∈ l.take p, x < l.getD p 0 := by
    intro x hx
    obtain ⟨n, hn, e⟩ := List.mem_iff_getElem.mp hx
    have hnp : n < p := by
      have h' := hn; rw [List.length_take] at h'; omega
    rw [List.getElem_take] at e
    rw [← e]
    have h' := hleft n hnp
    rw [List.getD_eq_getElem _ _ (by omega)] at h'
    exact h'
  have hmem_drop : ∀ x ∈ l.drop (p + 1), l.getD p 0 ≤ x := by
    intro x hx
    obtain ⟨n, hn, e⟩ := List.mem_iff_getElem.mp hx
    have hnlen : p + 1 + n < l.length := by
      have h' := hn; rw [List.length_drop] at h'; omega
    rw [List.getElem_drop] at e
    rw [← e]
    have h' := hright (p + 1 + n) (by omega) hnlen
    rw [List.getD_eq_getElem _ _ hnlen] at h'
    exact h'
  have hsplit : l = l.take p ++ l.getD p 0 :: l.drop (p + 1) := by
    conv_lhs => rw [← List.take_append_drop p l]
    congr 1
    rw [List.drop_eq_getElem_cons hp, List.getD_eq_getElem _ _ hp]
  refine List.eq_of_perm_of_sorted ?_ (List.sorted_insertionSort (· ≤ ·) l) ?_
  · refine (List.perm_insertionSort _ l).trans ?_
    nth_rewrite 1 [hsplit]
    exact List.Perm.append (List.perm_insertionSort _ _).symm
      (List.Perm.cons _ (List.perm_insertionSort _ _).symm)
  · show List.Pairwise (· ≤ ·) _
    rw [List.pairwise_append]
    refine ⟨List.sorted_insertionSort _ _, ?_, ?_⟩
    · rw [List.pairwise_cons]
      constructor
      · intro b hb
        exact hmem_drop b ((List.perm_insertionSort _ _).mem_iff.mp hb)
      · exact List.sorted_insertionSort _ _
    · intro a ha b hb
      have ha' : a < l.getD p 0 :=
        hmem_take a ((List.perm_insertionSort _ _).mem_iff.mp ha)
      rcases List.mem_cons.mp hb with rfl | hb'
      · exact le_of_lt ha'
      · have hb'' : l.getD p 0 ≤ b :=
          hmem_drop b ((List.perm_insertionSort _ _).mem_iff.mp hb')
        omega

/-- The recursive body of `quick_smallest` (`while list.len() != 1` with
early returns is a tail recursion on ever-shorter slices).  The pivot draws
`rng.gen_range(0, list.len())` are modelled by an arbitrary stream `pv` of
numbers, reduced modulo the current length — every sequence of valid pivot
choices arises this way.  `none` models the panics on an empty slice and the
(unreachable, given enough fuel) budget exhaustion. -/
def qsGo (pv : Nat → Nat) : Nat → List Int → Nat → Option Int
  | 0, _, _ => none
  | fuel + 1, l, k =>
    if l.length = 1 then some (l.getD 0 0)
    else if l.length = 0 then none
    else
      let r := partition l (pv 0 % l.length)
      if k = r.2 then some (r.1.getD k 0)
      else if k < r.2 then qsGo (fun n => pv (n + 1)) fuel (r.1.take r.2) k
      else qsGo (fun n => pv (n + 1)) fuel (r.1.drop (r.2 + 1)) (k - r.2 - 1)

/-- `ult_algo::sequence::selection::quick_smallest`; the `k >= list.len()`
panic is modelled as `none`. -/
def quick_smallest (pv : Nat → Nat) (l : List Int) (k : Nat) : Option Int :=
  if k ≥ l.length then none else qsGo pv l.length l k

theorem qsGo_spec :
    ∀ (fuel : Nat) (pv : Nat → Nat) (l : List Int) (k : Nat),
      k < l.length → l.length ≤ fuel →
      qsGo pv fuel l k = some ((List.insertionSort (· ≤ ·) l).getD k 0) := by
  intro fuel
  induction fuel with
  | zero => intro pv l k hk hf; omega
  | succ fuel ih =>
    intro pv l k hk hf
    rw [qsGo]
    by_cases h1 : l.length = 1
    · rw [if_pos h1]
      obtain ⟨a, rfl⟩ := List.length_eq_one.mp h1
      have hk0 : k = 0 := by
        rw [List.length_cons, List.length_nil] at hk; omega
      rw [hk0]
      rfl
    · rw [if_neg h1, if_neg (by omega)]
      have hlen2 : 2 ≤ l.length := by omega
      have hpiv : pv 0 % l.length < l.length := Nat.mod_lt _ (by omega)
      obtain ⟨hperm, hlen', hp, hh1, hh2⟩ := partition_spec l (pv 0 % l.length) hpiv (by omega)
      set r := partition l (pv 0 % l.length) with hrdef
      have hsort : List.insertionSort (· ≤ ·) l =
          List.insertionSort (· ≤ ·) (r.1.take r.2) ++
            r.1.getD r.2 0 :: List.insertionSort (· ≤ ·) (r.1.drop (r.2 + 1)) := by
        rw [sort_perm_congr l r.1 hperm.symm]
        exact sort_decomp r.1 r.2 (by omega) hh1 (fun j hj hjlen => hh2 j hj (by omega))
      have hLlen : (List.insertionSort (· ≤ ·) (r.1.take r.2)).length = r.2 := by
        rw [List.length_insertionSort, List.length_take]
        omega
      by_cases hkp : k = r.2
      · rw [if_pos hkp, hsort]
        rw [List.getD_append_right _ _ _ _ (by omega)]
        rw [hkp, hLlen]
        simp
      · rw [if_neg hkp]
        by_cases hklt : k < r.2
        · rw [if_pos hklt, hsort]
          rw [List.getD_append _ _ _ _ (by omega)]
          have htlen : (r.1.take r.2).length = r.2 := by
            rw [List.length_take]; omega
          exact ih (fun n => pv (n + 1)) (r.1.take r.2) k (by omega) (by omega)
        · rw [if_neg hklt, hsort]
          rw [List.getD_append_right _ _ _ _ (by omega)]
          have hdlen : (r.1.drop (r.2 + 1)).length = l.length - r.2 - 1 := by
            rw [List.length_drop]; omega
          rw [hLlen, show k - r.2 = (k - r.2 - 1) + 1 by omega, List.getD_cons_succ]
          exact ih (fun n => pv (n + 1)) (r.1.drop (r.2 + 1)) (k - r.2 - 1)
            (by omega) (by omega)

/-- C5: for every valid `k` and every stream of pivot draws, `quick_smallest`
returns the `k`-th smallest element of a fully sorted copy of the list. -/
theorem quick_smallest_spec (pv : Nat → Nat) (l : List Int) (k : Nat)
    (hk : k < l.length) :
    quick_smallest pv l k = some ((List.insertionSort (· ≤ ·) l).getD k 0) := by
  rw [quick_smallest, if_neg (by omega)]
  exact qsGo_spec l.length pv l k hk (le_refl _)

/-- C5 witness: on `[10, -30, -2, 5, 7, 0]` with `k = 3` (and a constant pivot
stream) the 4th-smallest element `5` is selected, matching the library's own
test. -/
theorem quick_smallest_spec_witness :
    quick_smallest (fun _ => 0) [(10 : Int), -30, -2, 5, 7, 0] 3 = some 5 := by
  have h := quick_smallest_spec (fun _ => 0) [(10 : Int), -30, -2, 5, 7, 0] 3 (by decide)
  rw [h]
  decide

theorem foldl_inv {α β : Type} (f : β → α → β) (P : β → Prop) :
    ∀ (xs : List α) (b : β), P b → (∀ b a, a ∈ xs → P b → P (f b a)) →
      P (xs.foldl f b) := by
  intro xs
  induction xs with
  | nil => intro b hb _; exact hb
  | cons x xs ih =>
    intro b hb hstep
    exact ih (f b x) (hstep b x (List.mem_cons_self x xs) hb)
      (fun b' a ha hb' => hstep b' a (List.mem_cons_of_mem x ha) hb')

/-- State of `permutation::SJTEven` (directions are `i8` values, always in
`\x7b-1, 0, 1\x7d` along real executions). -/
structure SJTState where
  last_permutation : List Int
  directions : List Int
  count : Nat
deriving DecidableEq

/-- `SJTEven::new`. -/
def sjtNew (sequence : List Int) : SJTState :=
  { directions := (List.range sequence.length).map (fun i => if i = 0 then 0 else -1),
    last_permutation := sequence,
    count := 0 }

/-- The "find the largest element with nonzero direction" scan of
`SJTEven::next` (result: chosen index, and whether any element is marked). -/
def sjtFindMax (perm dirs : List Int) : Nat × Bool :=
  (List.range perm.length).foldl
    (fun acc i =>
      if dirs.getD i 0 ≠ 0 then
        (if dirs.getD acc.1 0 = 0 ∨ perm.getD acc.1 0 < perm.getD i 0 then i else acc.1,
          true)
      else acc)
    (0, false)

/-- `SJTEven::next`.  The outermost `Option` is `none` when the call panics
(the out-of-range swap index, or `self.directions[0] = 0` during the reset on
an empty vector); otherwise the emitted value is the first component (`none`
on exhaustion) and the second component is the successor state. -/
def sjtNext (st : SJTState) : Option (Option (List Int) × SJTState) :=
  let count' := st.count + 1
  if count' = 1 then some (some st.last_permutation, { st with count := count' })
  else
    let n := st.last_permutation.length
    let fm := sjtFindMax st.last_permutation st.directions
    if fm.2 = false then
      match st.directions with
      | [] => none
      | _ :: ds =>
        some (none,
          { last_permutation := st.last_permutation,
            directions := 0 :: ds.map (fun _ => -1),
            count := 0 })
    else
      let old_max_i := fm.1
      let mi : Int := (old_max_i : Int) + st.directions.getD old_max_i 0
      if mi < 0 ∨ (n : Int) ≤ mi then none
      else
        let max_i := mi.toNat
        let perm2 := lswap st.last_permutation max_i old_max_i
        let dirs2 := lswap st.directions max_i old_max_i
        let last_i := n - 1
        let next_i : Int := (max_i : Int) + dirs2.getD max_i 0
        let dirs3 :=
          if max_i = 0 ∨ max_i = last_i ∨
              perm2.getD max_i 0 < perm2.getD next_i.toNat 0 then
            dirs2.set max_i 0
          else dirs2
        let dirs4 :=
          (List.range n).foldl
            (fun ds i =>
              if perm2.getD max_i 0 < perm2.getD i 0 then
                ds.set i (if i < max_i then 1 else -1)
              else ds)
            dirs3
        some (some perm2, { last_permutation := perm2, directions := dirs4, count := count' })

theorem sjtFindMax_marked (perm dirs : List Int) (h : (sjtFindMax perm dirs).2 = true) :
    (sjtFindMax perm dirs).1 < perm.length ∧
    dirs.getD (sjtFindMax perm dirs).1 0 ≠ 0 := by
  have hinv := foldl_inv
    (fun (acc : Nat × Bool) i =>
      if dirs.getD i 0 ≠ 0 then
        (if dirs.getD acc.1 0 = 0 ∨ perm.getD acc.1 0 < perm.getD i 0 then i else acc.1,
          true)
      else acc)
    (fun acc => (acc.2 = true → acc.1 < perm.length ∧ dirs.getD acc.1 0 ≠ 0) ∧
      (acc.2 = false → acc.1 = 0))
    (List.range perm.length) (0, false)
    ⟨fun h' => absurd h' (by simp), fun _ => rfl⟩
    ?_
  · exact hinv.1 h
  · intro b a ha hb
    dsimp only
    have halen : a < perm.length := List.mem_range.mp ha
    by_cases hd : dirs.getD a 0 ≠ 0
    · rw [if_pos hd]
      constructor
      · intro _
        by_cases hc : dirs.getD b.1 0 = 0 ∨ perm.getD b.1 0 < perm.getD a 0
        · rw [if_pos hc]
          exact ⟨halen, hd⟩
        · rw [if_neg hc]
          push_neg at hc
          refine ⟨?_, hc.1⟩
          rcases hb2 : b.2 with _ | _
          · rw [hb.2 hb2]
            omega
          · exact (hb.1 hb2).1
      · intro hfalse
        exact absurd hfalse (by simp)
    · rw [if_neg hd]
      exact hb

/-- C7: every permutation emitted by `SJTEven` after the first differs from
the previous one by swapping exactly two adjacent elements: whenever `next`
emits on a call that is not the first of a cycle, the new permutation is
`lswap` of the previous at two adjacent positions, and (for duplicate-free
elements) is distinct from it. -/
theorem sjt_adjacent_swap (st : SJTState) (p2 : List Int) (st2 : SJTState)
    (hc : 1 ≤ st.count) (hnd : st.last_permutation.Nodup)
    (hd : ∀ d ∈ st.directions, d = -1 ∨ d = 0 ∨ d = 1)
    (hstep : sjtNext st = some (some p2, st2)) :
    ∃ i, i + 1 < st.last_permutation.length ∧
      p2 = lswap st.last_permutation i (i + 1) ∧ p2 ≠ st.last_permutation := by
  simp only [sjtNext] at hstep
  rw [if_neg (show ¬ (st.count + 1 = 1) by omega)] at hstep
  by_cases hm : (sjtFindMax st.last_permutation st.directions).2 = false
  · rw [if_pos hm] at hstep
    rcases hdirs : st.directions with _ | ⟨d0, ds⟩
    · rw [hdirs] at hstep
      exact absurd hstep (by simp)
    · rw [hdirs] at hstep
      simp at hstep
  · rw [if_neg hm] at hstep
    obtain ⟨hfmlen, hfmdir⟩ := sjtFindMax_marked st.last_permutation st.directions
      (by simpa using hm)
    have hdlen : (sjtFindMax st.last_permutation st.directions).1 < st.directions.length := by
      by_contra hcon
      exact hfmdir (List.getD_eq_default _ _ (by omega))
    have hdmem : st.directions.getD (sjtFindMax st.last_permutation st.directions).1 0 ∈
        st.directions := getD_mem st.directions _ hdlen
    have hdval : st.directions.getD (sjtFindMax st.last_permutation st.directions).1 0 = -1 ∨
        st.directions.getD (sjtFindMax st.last_permutation st.directions).1 0 = 1 := by
      rcases hd _ hdmem with h | h | h
      · exact Or.inl h
      · exact absurd h hfmdir
      · exact Or.inr h
    by_cases hpanic : (((sjtFindMax st.last_permutation st.directions).1 : Int) +
          st.directions.getD (sjtFindMax st.last_permutation st.directions).1 0 < 0 ∨
        (st.last_permutation.length : Int) ≤
          ((sjtFindMax st.last_permutation st.directions).1 : Int) +
            st.directions.getD (sjtFindMax st.last_permutation st.directions).1 0)
    · rw [if_pos hpanic] at hstep
      exact absurd hstep (by simp)
    · rw [if_neg hpanic] at hstep
      push_neg at hpanic
      obtain ⟨h0le, hlt⟩ := hpanic
      have hp2 : p2 = lswap st.last_permutation
          ((((sjtFindMax st.last_permutation st.directions).1 : Int) +
            st.directions.getD (sjtFindMax st.last_permutation st.directions).1 0).toNat)
          (sjtFindMax st.last_permutation st.directions).1 := by
        have h' := Option.some_inj.mp hstep
        have h'' := congrArg Prod.fst h'
        simpa using h''.symm
      rcases hdval with hval | hval
      · -- moving left: the swap is at (old - 1, old)
        rw [hval] at hp2 h0le hlt
        have hold1 : 1 ≤ (sjtFindMax st.last_permutation st.directions).1 := by omega
        refine ⟨(sjtFindMax st.last_permutation st.directions).1 - 1, by omega, ?_, ?_⟩
        · rw [hp2]
          congr 1
          · omega
          · omega
        · rw [hp2]
          intro hcon
          have hgd : (lswap st.last_permutation
              ((((sjtFindMax st.last_permutation st.directions).1 : Int) + -1).toNat)
              (sjtFindMax st.last_permutation st.directions).1).getD
                ((((sjtFindMax st.last_permutation st.directions).1 : Int) + -1).toNat) 0 =
              st.last_permutation.getD (sjtFindMax st.last_permutation st.directions).1 0 := by
            rw [getD_lswap _ _ _ _ (by omega) hfmlen]
            rw [if_neg (by omega), if_pos rfl]
          rw [hcon] at hgd
          have hne : (((sjtFindMax st.last_permutation st.directions).1 : Int) + -1).toNat ≠
              (sjtFindMax st.last_permutation st.directions).1 := by omega
          apply hne
          rw [List.getD_eq_getElem _ _ (by omega), List.getD_eq_getElem _ _ hfmlen] at hgd
          exact (List.Nodup.getElem_inj_iff hnd).mp hgd
      · -- moving right: the swap is at (old, old + 1)
        rw [hval] at hp2 h0le hlt
        refine ⟨(sjtFindMax st.last_permutation st.directions).1, by omega, ?_, ?_⟩
        · rw [hp2, show ((((sjtFindMax st.last_permutation st.directions).1 : Int) + 1).toNat)
              = (sjtFindMax st.last_permutation st.directions).1 + 1 by omega]
          exact lswap_comm _ _ _ (by omega)
        · rw [hp2]
          intro hcon
          have hgd : (lswap st.last_permutation
              ((((sjtFindMax st.last_permutation st.directions).1 : Int) + 1).toNat)
              (sjtFindMax st.last_permutation st.directions).1).getD
                (sjtFindMax st.last_permutation st.directions).1 0 =
              st.last_permutation.getD
                ((((sjtFindMax st.last_permutation st.directions).1 : Int) + 1).toNat) 0 := by
            rw [getD_lswap _ _ _ _ (by omega) hfmlen]
            rw [if_pos rfl]
          rw [hcon] at hgd
          have hne : (sjtFindMax st.last_permutation st.directions).1 ≠
              (((sjtFindMax st.last_permutation st.directions).1 : Int) + 1).toNat := by omega
          apply hne
          rw [List.getD_eq_getElem _ _ hfmlen, List.getD_eq_getElem _ _ (by omega)] at hgd
          exact (List.Nodup.getElem_inj_iff hnd).mp hgd

/-- C7 witness: from the state after the first emission on `[1, 2]`, the next
call emits `[2, 1]`, an adjacent transposition of `[1, 2]`. -/
theorem sjt_adjacent_swap_witness :
    ∃ i, i + 1 < (SJTState.mk [(1 : Int), 2] [0, -1] 1).last_permutation.length ∧
      [(2 : Int), 1] = lswap (SJTState.mk [(1 : Int), 2] [0, -1] 1).last_permutation i (i + 1) ∧
      [(2 : Int), 1] ≠ (SJTState.mk [(1 : Int), 2] [0, -1] 1).last_permutation :=
  sjt_adjacent_swap (SJTState.mk [(1 : Int), 2] [0, -1] 1) [(2 : Int), 1]
    (SJTState.mk [(2 : Int), 1] [0, 0] 2) (by decide) (by decide)
    (by decide) (by decide)

/-- C6 (code bug, failing input): over the empty sequence, `SJTEven` emits its
single (`0! = 1`) permutation, but the *second* call — which the claim says
signals exhaustion and resets — instead executes `self.directions[0] = 0` on an
empty vector and panics (modelled as `none`). -/
theorem sjt_empty_exhaustion_panics :
    sjtNext (sjtNew []) = some (some [], SJTState.mk [] [] 1) ∧
    sjtNext (SJTState.mk [] [] 1) = none := by
  refine ⟨by decide, by decide⟩
